import Mathlib

/-!
Verification of the Msg2All translation orchestrator (`src/Msg2All.py`).

Python strings are modelled as `List Char` (a character sequence); the
chunker, the chunk translator, the worklist builder and the scheduling
loop of `do_translate_all` are embedded shallowly below, each definition
translated from the corresponding Python source.
-/

set_option maxHeartbeats 1000000

namespace Msg2All

/-- Predicate for the characters Python's `str.splitlines` treats as line
boundaries: `\n`, `\r`, `\v` (0x0b), `\f` (0x0c), FS/GS/RS (0x1c–0x1e),
NEL (0x85), LS (0x2028), PS (0x2029).  (`\r\n` is handled as a single
terminator by `splitlinesKE` itself.) -/
def isLineBreak (c : Char) : Bool :=
  c = '\n' || c = '\r' || c = Char.ofNat 0x0b || c = Char.ofNat 0x0c ||
  c = Char.ofNat 0x1c || c = Char.ofNat 0x1d || c = Char.ofNat 0x1e ||
  c = Char.ofNat 0x85 || c = Char.ofNat 0x2028 || c = Char.ofNat 0x2029

/-- Model of Python `text.splitlines(keepends=True)`: split into lines, each
line keeping its terminator; `acc` holds the (reversed) characters of the
line currently being scanned.  `\r\n` counts as one terminator; a final
fragment without terminator is its own line; the empty string has no lines. -/
def splitlinesKE : List Char → List Char → List (List Char)
  | [], acc => if acc.isEmpty then [] else [acc.reverse]
  | '\r' :: '\n' :: rest, acc => (acc.reverse ++ ['\r', '\n']) :: splitlinesKE rest []
  | c :: rest, acc =>
    if isLineBreak c then (acc.reverse ++ [c]) :: splitlinesKE rest []
    else splitlinesKE rest (c :: acc)

/-- The accumulation loop of `chunk_text` (src/Msg2All.py lines 30–39): fold
the lines into chunks, greedily filling a buffer `buf` of character count
`count`; when the next line would push `count` past `maxChars` and the buffer
is nonempty, seal the buffer into a chunk and start a fresh buffer holding
that line. -/
def chunkLoop (maxChars : Nat) : List (List Char) → List (List Char) → Nat → List (List Char)
  | [], buf, _ => if buf.isEmpty then [] else [buf.flatten]
  | line :: rest, buf, count =>
    if count + line.length > maxChars && !buf.isEmpty then
      buf.flatten :: chunkLoop maxChars rest [line] line.length
    else
      chunkLoop maxChars rest (buf ++ [line]) (count + line.length)

/-- Model of `chunk_text(text, max_chars)` (src/Msg2All.py lines 26–40):
return `[text]` whole when it already fits, otherwise chunk its lines
greedily. -/
def chunk_text (text : List Char) (maxChars : Nat) : List (List Char) :=
  if text.length ≤ maxChars then [text]
  else chunkLoop maxChars (splitlinesKE text []) [] 0

/-- Sequential body of `translate_full_text` (src/Msg2All.py lines 100–103):
translate each chunk in order via the external call `tc` and concatenate the
pieces; a failing call aborts the whole job with that error. -/
def translateSeq (tc : List Char → Except String String) :
    List (List Char) → Except String String
  | [] => .ok ""
  | c :: rest =>
    match tc c with
    | .error e => .error e
    | .ok t =>
      match translateSeq tc rest with
      | .error e => .error e
      | .ok s => .ok (t ++ s)

/-- Chunks for which the sequential loop actually issues a `translate_chunk`
call: every chunk up to and including the first failing one. -/
def translateCalls (tc : List Char → Except String String) :
    List (List Char) → List (List Char)
  | [] => []
  | c :: rest =>
    match tc c with
    | .error _ => [c]
    | .ok _ => c :: translateCalls tc rest

/-- Model of `translate_full_text` (src/Msg2All.py lines 93–103): chunk the
document with the default `max_chars = 4500` and translate the chunks
sequentially, concatenating the results in chunk order; `tc` abstracts the
external `translate_chunk` call (the Translation Port). -/
def translate_full_text (tc : List Char → Except String String)
    (text : List Char) : Except String String :=
  translateSeq tc (chunk_text text 4500)

/-- Chunks for which `translate_full_text` issues a `translate_chunk` call. -/
def translate_full_text_calls (tc : List Char → Except String String)
    (text : List Char) : List (List Char) :=
  translateCalls tc (chunk_text text 4500)

/-- One entry of the supported-language listing (src/Msg2All.py line 124 and
131): a language code and a display name (possibly empty). -/
structure SupportedLanguage where
  language_code : String
  display_name : String
deriving DecidableEq

/-- Model of `lang.display_name or lang.language_code` (line 131): Python
`or` falls back to the code when the display name is the empty string. -/
def displayOrCode (l : SupportedLanguage) : String :=
  if l.display_name = "" then l.language_code else l.display_name

/-- Model of the dict `name_by_code` and its `.get(code, code)` lookup
(lines 131 and 137): for duplicate codes the last entry wins; a code absent
from the listing falls back to itself. -/
def name_by_code (supported : List SupportedLanguage) (code : String) : String :=
  match supported.reverse.find? (fun l => l.language_code == code) with
  | some l => displayOrCode l
  | none => code

/-- Model of the worklist loop of `do_translate_all` (src/Msg2All.py lines
129–137): keep every supported code that is neither the detected source nor
in the exclusion list (exact string comparison), pairing it with its display
name. -/
def build_worklist (supported : List SupportedLanguage) (source_lang : String)
    (exclude : List String) : List (String × String) :=
  (supported.map (fun l => l.language_code)).filterMap (fun code =>
    if code = source_lang then none
    else if code ∈ exclude then none
    else some (code, name_by_code supported code))

/-- State accumulated by the completion loop of `do_translate_all`
(src/Msg2All.py lines 144–169), in completion order: the `results` and
`errors` dicts as association lists, the files written by
`out_file.write_text` as (path, content) pairs, and the progress lines
printed, recorded as (completedCount, total, languageCode, success flag). -/
structure RunState where
  results : List (String × String)
  errors : List (String × String)
  writes : List (String × String)
  events : List (Nat × Nat × String × Bool)
deriving DecidableEq

/-- Output path for one language (src/Msg2All.py line 161), modelling
`pathlib.Path(outdir, f"(stem).(lang_code).txt")`. -/
def outFile (outdir stem code : String) : String :=
  outdir ++ "/" ++ stem ++ "." ++ code ++ ".txt"

/-- Completion loop of `do_translate_all` (src/Msg2All.py lines 155–169),
processing the finished jobs in completion order: a successful task records
its translation in `results`, writes the output file and prints a success
progress line; a task that raised records the error description in `errors`
and prints a failure line; either way `completed` advances by one.  The
`task` argument abstracts `_task` (line 147), i.e. one whole-document
translation; the filesystem write is modelled as always succeeding (file
I/O is an external collaborator outside the spec's scope). -/
def processJobs (task : String → Except String String) (outdir stem : String)
    (total : Nat) : List (String × String) → Nat → RunState
  | [], _ => ⟨[], [], [], []⟩
  | (code, _) :: rest, completed =>
    let st := processJobs task outdir stem total rest (completed + 1)
    match task code with
    | .ok t =>
      ⟨(code, t) :: st.results, st.errors, (outFile outdir stem code, t) :: st.writes,
        (completed + 1, total, code, true) :: st.events⟩
    | .error e =>
      ⟨st.results, (code, e) :: st.errors, st.writes,
        (completed + 1, total, code, false) :: st.events⟩

/-- Model of the scheduling block of `do_translate_all` (src/Msg2All.py lines
150–169): `order` lists the submitted jobs in the order
`concurrent.futures.as_completed` yields them (an arbitrary permutation of
the worklist); `total = len(future_map)` and the completed counter starts
at 0. -/
def runAll (task : String → Except String String) (outdir stem : String)
    (order : List (String × String)) : RunState :=
  processJobs task outdir stem order.length order 0

/-- Model of `ThreadPoolExecutor(max_workers=...)` around the loop (line
150): the constructor raises `ValueError` when `max_workers <= 0`; otherwise
the worker count only bounds concurrency, which the embedding abstracts into
the completion `order`, so the recorded outcomes do not depend on it. -/
def runAllWithWorkers (maxWorkers : Int) (task : String → Except String String)
    (outdir stem : String) (order : List (String × String)) : Option RunState :=
  if maxWorkers ≤ 0 then none
  else some (runAll task outdir stem order)

/-- Worker-count coercion in `main` (src/Msg2All.py line 202):
`max_workers=max(1, args.workers)`. -/
def effectiveWorkers (workers : Int) : Int := max 1 workers

/-- Apply a sequence of `write_text` calls, in order, to a filesystem
modelled as a map from path to contents. -/
def applyWrites (fs : String → Option String) :
    List (String × String) → String → Option String
  | [] => fs
  | (p, t) :: rest => applyWrites (fun q => if q = p then some t else fs q) rest

/-- Concatenating the lines produced by `splitlinesKE` restores the pending
accumulator followed by the unscanned input. -/
theorem splitlinesKE_flatten (s acc : List Char) :
    (splitlinesKE s acc).flatten = acc.reverse ++ s := by
  induction s, acc using splitlinesKE.induct with
  | case1 acc h => simp [splitlinesKE, h, List.isEmpty_iff.mp h]
  | case2 acc h => simp [splitlinesKE, h]
  | case3 rest acc ih => simp [splitlinesKE, ih]
  | case4 c rest acc hne hbr ih => rw [splitlinesKE.eq_3 _ _ _ hne]; simp [hbr, ih]
  | case5 c rest acc hne hbr ih => rw [splitlinesKE.eq_3 _ _ _ hne]; simp [hbr, ih]

/-- Every line produced by `splitlinesKE` is nonempty (it holds at least one
character, either content or a terminator). -/
theorem splitlinesKE_ne_nil (s acc : List Char) :
    ∀ l ∈ splitlinesKE s acc, l ≠ [] := by
  induction s, acc using splitlinesKE.induct with
  | case1 acc h => simp [splitlinesKE, h]
  | case2 acc h =>
    intro l hl
    simp only [splitlinesKE, h, if_false, Bool.false_eq_true, List.mem_singleton] at hl
    subst hl
    simp only [ne_eq, List.reverse_eq_nil_iff]
    exact fun hh => h (by simp [hh])
  | case3 rest acc ih =>
    intro l hl
    simp only [splitlinesKE, List.mem_cons] at hl
    rcases hl with hl | hl
    · subst hl; simp
    · exact ih l hl
  | case4 c rest acc hne hbr ih =>
    intro l hl
    rw [splitlinesKE.eq_3 _ _ _ hne] at hl
    simp only [hbr, if_true, List.mem_cons] at hl
    rcases hl with hl | hl
    · subst hl; simp
    · exact ih l hl
  | case5 c rest acc hne hbr ih =>
    intro l hl
    rw [splitlinesKE.eq_3 _ _ _ hne] at hl
    simp only [hbr, if_false, Bool.false_eq_true] at hl
    exact ih l hl

/-- Concatenating the chunks produced by `chunkLoop` restores the pending
buffer followed by the remaining lines. -/
theorem chunkLoop_flatten (m : Nat) (lines buf : List (List Char)) (count : Nat) :
    (chunkLoop m lines buf count).flatten = buf.flatten ++ lines.flatten := by
  induction lines generalizing buf count with
  | nil =>
    by_cases h : buf.isEmpty
    · simp [chunkLoop, h, List.isEmpty_iff.mp h]
    · simp [chunkLoop, h]
  | cons line rest ih =>
    rw [chunkLoop]
    split
    · simp [ih]
    · simp [ih]

/-- Every chunk produced by `chunkLoop` either fits in `m` characters or is a
single buffered line, provided the buffer invariant holds: `count` is the
buffer's character count, a multi-line buffer fits in `m`, and all lines come
from the pool `L`. -/
theorem chunkLoop_size (m : Nat) (L : List (List Char)) (lines buf : List (List Char))
    (count : Nat) :
    count = buf.flatten.length →
    (2 ≤ buf.length → buf.flatten.length ≤ m) →
    (∀ l ∈ buf, l ∈ L) →
    (∀ l ∈ lines, l ∈ L) →
    ∀ c ∈ chunkLoop m lines buf count, c.length ≤ m ∨ c ∈ L := by
  induction lines generalizing buf count with
  | nil =>
    intro _ hbuf hbufmem _ c hc
    by_cases h : buf.isEmpty
    · simp [chunkLoop, h] at hc
    · simp only [chunkLoop, h, if_false, Bool.false_eq_true, List.mem_singleton] at hc
      subst hc
      match buf, h with
      | [l], _ => exact Or.inr (by simpa using hbufmem l (by simp))
      | l1 :: l2 :: bs, _ => exact Or.inl (hbuf (by simp))
  | cons line rest ih =>
    intro hcount hbuf hbufmem hlines c hc
    rw [chunkLoop] at hc
    split at hc
    · rename_i hcond
      simp only [Bool.and_eq_true, Bool.not_eq_eq_eq_not, Bool.not_true,
        decide_eq_true_eq] at hcond
      simp only [List.mem_cons] at hc
      rcases hc with hc | hc
      · subst hc
        match buf, hcond.2 with
        | [l], _ => exact Or.inr (by simpa using hbufmem l (by simp))
        | l1 :: l2 :: bs, _ => exact Or.inl (hbuf (by simp))
      · exact ih [line] line.length (by simp) (by simp) (by
          intro l hl
          simp only [List.mem_singleton] at hl
          rw [hl]
          exact hlines line (by simp)) (fun l hl => hlines l (by simp [hl])) c hc
    · rename_i hcond
      refine ih (buf ++ [line]) (count + line.length) (by simp [hcount]) ?_
        (by
          intro l hl
          simp only [List.mem_append, List.mem_singleton] at hl
          rcases hl with hl | hl
          · exact hbufmem l hl
          · rw [hl]; exact hlines line (by simp))
        (fun l hl => hlines l (by simp [hl])) c hc
      intro hlen
      by_cases hb : buf.isEmpty
      · rw [List.isEmpty_iff.mp hb] at hlen
        exact absurd hlen (by simp)
      · have h1 : count + line.length ≤ m := by
          rcases le_or_lt (count + line.length) m with h | h
          · exact h
          · have hb' : buf.isEmpty = false := by
              cases hhb : buf.isEmpty
              · rfl
              · exact absurd hhb hb
            exact absurd (by simp [h, hb']) hcond
        simp only [List.flatten_append, List.length_append, List.flatten_cons,
          List.flatten_nil, List.append_nil]
        omega

/-- An element of a list of at least two nonempty lists is strictly shorter
than the concatenation of the whole list. -/
theorem flatten_length_lt_of_mem (L : List (List Char)) (l : List Char) :
    l ∈ L → 2 ≤ L.length → (∀ x ∈ L, x ≠ []) → l.length < L.flatten.length := by
  intro hmem hlen hne
  obtain ⟨p, q, hpq⟩ := List.append_of_mem hmem
  subst hpq
  simp only [List.flatten_append, List.flatten_cons, List.length_append]
  rcases p with _ | ⟨x, p2⟩
  · rcases q with _ | ⟨y, q2⟩
    · simp at hlen
    · have hy : 0 < y.length := List.length_pos.mpr (hne y (by simp))
      simp only [List.flatten_nil, List.length_nil, List.flatten_cons,
        List.length_append]
      omega
  · have hx : 0 < x.length := List.length_pos.mpr (hne x (by simp))
    simp only [List.flatten_cons, List.length_append]
    omega

/-- The chunk loop produces no chunks only from an empty buffer and no lines. -/
theorem chunkLoop_ne_nil (m : Nat) (lines buf : List (List Char)) (count : Nat)
    (h : ¬ (lines = [] ∧ buf = [])) :
    chunkLoop m lines buf count ≠ [] := by
  induction lines generalizing buf count with
  | nil =>
    have hbuf : buf ≠ [] := fun hb => h ⟨rfl, hb⟩
    simp [chunkLoop, List.isEmpty_iff, hbuf]
  | cons line rest ih =>
    rw [chunkLoop]
    split
    · simp
    · exact ih (buf ++ [line]) (count + line.length) (by simp)

/-- C1: Chunk round-trip — for every input text and every `maxChars ≥ 1`,
concatenating the chunks returned by `chunk_text text maxChars` in order
reproduces `text` exactly, with no characters added, dropped or reordered. -/
theorem chunk_round_trip (text : List Char) (maxChars : Nat) (h : 1 ≤ maxChars) :
    (chunk_text text maxChars).flatten = text := by
  unfold chunk_text
  split
  · simp
  · rw [chunkLoop_flatten]
    simp [splitlinesKE_flatten]

/-- Witness for C1 at a concrete input. -/
theorem chunk_round_trip_witness :
    1 ≤ 3 ∧ (chunk_text ("hello\nworld\n".data) 3).flatten = "hello\nworld\n".data :=
  ⟨by decide, chunk_round_trip ("hello\nworld\n".data) 3 (by decide)⟩

/-- C2: Chunk size bound — for every input text and every `maxChars ≥ 1`,
every chunk returned by `chunk_text text maxChars` has length `≤ maxChars`,
except a chunk that consists of a single line of the text (a member of its
`splitlines(keepends=True)` decomposition) whose own length exceeds
`maxChars`; such a line is never split and is placed whole into its own
chunk. -/
theorem chunk_size_bound (text : List Char) (maxChars : Nat) (h : 1 ≤ maxChars) :
    ∀ c ∈ chunk_text text maxChars,
      c.length ≤ maxChars ∨ (c ∈ splitlinesKE text [] ∧ maxChars < c.length) := by
  intro c hc
  by_cases hlen : c.length ≤ maxChars
  · exact Or.inl hlen
  · refine Or.inr ⟨?_, by omega⟩
    unfold chunk_text at hc
    split at hc
    · rename_i hfit
      simp only [List.mem_singleton] at hc
      subst hc
      omega
    · have hmem := chunkLoop_size maxChars (splitlinesKE text [])
        (splitlinesKE text []) [] 0 (by simp) (by simp) (by simp)
        (fun l hl => hl) c hc
      rcases hmem with h1 | h1
      · omega
      · exact h1

/-- Witness for C2 at a concrete input where one line exceeds the bound. -/
theorem chunk_size_bound_witness :
    1 ≤ 3 ∧ ("hello\n".data ∈ chunk_text ("hello\nworld\n".data) 3) ∧
      (("hello\n".data).length ≤ 3 ∨
        ("hello\n".data ∈ splitlinesKE ("hello\nworld\n".data) [] ∧
          3 < ("hello\n".data).length)) :=
  ⟨by decide, by decide,
    chunk_size_bound ("hello\nworld\n".data) 3 (by decide) ("hello\n".data) (by decide)⟩

/-- C3 counterexample: `chunk_text "aa" 1` is a single chunk even though
`len "aa" = 2 > 1`, because a lone line longer than `maxChars` is never
split; so "exactly one chunk iff `len(text) ≤ maxChars`" is false. -/
theorem chunk_single_cex :
    ¬ (((chunk_text ['a', 'a'] 1).length = 1) ↔ (['a', 'a'] : List Char).length ≤ 1) := by
  decide

/-- C3 (amended): `chunk_text text maxChars` returns exactly one chunk iff
`len text ≤ maxChars` or the text consists of a single line (its
`splitlines(keepends=True)` decomposition has exactly one line); whenever a
single chunk is returned it equals the whole text, and empty text yields a
single empty chunk. -/
theorem chunk_single_amended (text : List Char) (maxChars : Nat) (h : 1 ≤ maxChars) :
    ((chunk_text text maxChars).length = 1 ↔
      (text.length ≤ maxChars ∨ (splitlinesKE text []).length = 1)) ∧
    (∀ c, chunk_text text maxChars = [c] → c = text) ∧
    chunk_text [] maxChars = [[]] := by
  have hsingle : ∀ c, chunk_text text maxChars = [c] → c = text := by
    intro c hc
    have := chunk_round_trip text maxChars h
    rw [hc] at this
    simpa using this
  refine ⟨⟨?_, ?_⟩, hsingle, by simp [chunk_text]⟩
  · intro h1
    by_cases hfit : text.length ≤ maxChars
    · exact Or.inl hfit
    · right
      obtain ⟨c, hc⟩ := List.length_eq_one.mp h1
      rw [hsingle c hc] at hc
      unfold chunk_text at hc
      rw [if_neg hfit] at hc
      have hmem : text ∈ chunkLoop maxChars (splitlinesKE text []) [] 0 := by
        rw [hc]; simp
      have hsz := chunkLoop_size maxChars (splitlinesKE text [])
        (splitlinesKE text []) [] 0 (by simp) (by simp) (by simp)
        (fun l hl => hl) text hmem
      rcases hsz with h2 | h2
      · omega
      · by_contra hne
        have hge : 2 ≤ (splitlinesKE text []).length := by
          rcases Nat.lt_or_ge (splitlinesKE text []).length 2 with hlt | hge2
          · interval_cases hh : (splitlinesKE text []).length
            · have hfl : (splitlinesKE text []).flatten = text := by
                simp [splitlinesKE_flatten]
              rw [List.length_eq_zero.mp hh] at hfl
              simp only [List.flatten_nil] at hfl
              rw [← hfl] at hfit
              simp at hfit
            · exact absurd rfl hne
          · exact hge2
        have hlt := flatten_length_lt_of_mem (splitlinesKE text []) text h2 hge
          (splitlinesKE_ne_nil text [])
        rw [splitlinesKE_flatten] at hlt
        simp at hlt
  · intro h1
    rcases h1 with h1 | h1
    · unfold chunk_text
      rw [if_pos h1]
      rfl
    · by_cases hfit : text.length ≤ maxChars
      · unfold chunk_text
        rw [if_pos hfit]
        rfl
      · obtain ⟨l, hl⟩ := List.length_eq_one.mp h1
        unfold chunk_text
        rw [if_neg hfit, hl]
        simp [chunkLoop]

/-- Witness for C3's amended claim at a concrete input. -/
theorem chunk_single_amended_witness :
    (((chunk_text ("hello\nworld\n".data) 3).length = 1 ↔
      (("hello\nworld\n".data).length ≤ 3 ∨
        (splitlinesKE ("hello\nworld\n".data) []).length = 1)) ∧
    (∀ c, chunk_text ("hello\nworld\n".data) 3 = [c] → c = "hello\nworld\n".data) ∧
    chunk_text [] 3 = [[]]) :=
  chunk_single_amended ("hello\nworld\n".data) 3 (by decide)

/-- Characterization of the codes appearing in the built worklist: exactly
the supported codes that are neither the source nor excluded. -/
theorem mem_build_worklist (supported : List SupportedLanguage)
    (source_lang : String) (exclude : List String) (x : String) :
    x ∈ (build_worklist supported source_lang exclude).map Prod.fst ↔
      (x ∈ supported.map (fun l => l.language_code) ∧
        x ≠ source_lang ∧ x ∉ exclude) := by
  simp only [build_worklist, List.map_filterMap, List.mem_filterMap]
  constructor
  · rintro ⟨code, hcode, hopt⟩
    by_cases h1 : code = source_lang
    · rw [if_pos h1] at hopt; simp at hopt
    · rw [if_neg h1] at hopt
      by_cases h2 : code ∈ exclude
      · rw [if_pos h2] at hopt; simp at hopt
      · rw [if_neg h2] at hopt
        simp only [Option.map_some'] at hopt
        have hx : code = x := by simpa using hopt
        subst hx
        exact ⟨hcode, h1, h2⟩
  · rintro ⟨hmem, h1, h2⟩
    exact ⟨x, hmem, by simp [h1, h2]⟩

/-- C7: Worklist exclusion — for every supported-language listing, detected
source code and exclusion list, the worklist built by `do_translate_all`
never contains the detected source language code and never contains any
code present in the exclusion set (case-sensitive exact string match), and
duplicate codes in the exclusion set do not change the result. -/
theorem worklist_exclusion (supported : List SupportedLanguage)
    (source_lang : String) (exclude : List String) :
    source_lang ∉ (build_worklist supported source_lang exclude).map Prod.fst ∧
    (∀ x, x ∈ exclude →
      x ∉ (build_worklist supported source_lang exclude).map Prod.fst) ∧
    build_worklist supported source_lang exclude
      = build_worklist supported source_lang exclude.dedup := by
  refine ⟨?_, ?_, ?_⟩
  · intro hmem
    exact ((mem_build_worklist supported source_lang exclude source_lang).mp hmem).2.1 rfl
  · intro x hx hmem
    exact ((mem_build_worklist supported source_lang exclude x).mp hmem).2.2 hx
  · unfold build_worklist
    congr 1
    funext code
    by_cases h1 : code = source_lang
    · simp [h1]
    · by_cases h2 : code ∈ exclude
      · simp [h1, h2, List.mem_dedup]
      · simp [h1, h2, List.mem_dedup]

/-- Witness for C7 at a concrete listing, source and (duplicated) exclusion
set. -/
theorem worklist_exclusion_witness :
    ("en" ∉ (build_worklist
        [⟨"en", ""⟩, ⟨"fr", "French"⟩, ⟨"de", ""⟩] "en" ["fr", "fr"]).map Prod.fst) ∧
    ("fr" ∉ (build_worklist
        [⟨"en", ""⟩, ⟨"fr", "French"⟩, ⟨"de", ""⟩] "en" ["fr", "fr"]).map Prod.fst) :=
  ⟨(worklist_exclusion [⟨"en", ""⟩, ⟨"fr", "French"⟩, ⟨"de", ""⟩] "en" ["fr", "fr"]).1,
    (worklist_exclusion [⟨"en", ""⟩, ⟨"fr", "French"⟩, ⟨"de", ""⟩] "en"
      ["fr", "fr"]).2.1 "fr" (by decide)⟩

/-- When the external call succeeds on every chunk, the sequential loop
returns the concatenation of the per-chunk translations in chunk order. -/
theorem translateSeq_ok (tc : List Char → Except String String) :
    ∀ chunks : List (List Char), (∀ c ∈ chunks, (tc c).isOk) →
      ∃ ts, List.Forall₂ (fun c t => tc c = .ok t) chunks ts ∧
        translateSeq tc chunks = .ok (ts.foldr (· ++ ·) "") := by
  intro chunks
  induction chunks with
  | nil => exact fun _ => ⟨[], List.Forall₂.nil, rfl⟩
  | cons c rest ih =>
    intro hok
    have hc : ∃ t, tc c = .ok t := by
      rcases hcase : tc c with e | t
      · have := hok c (by simp)
        rw [hcase] at this
        simp [Except.isOk, Except.toBool] at this
      · exact ⟨t, rfl⟩
    obtain ⟨t, ht⟩ := hc
    obtain ⟨ts, hall, hseq⟩ := ih (fun x hx => hok x (by simp [hx]))
    exact ⟨t :: ts, List.Forall₂.cons ht hall, by
      rw [translateSeq, ht, hseq]
      rfl⟩

/-- When the chunk list splits as successful prefix, failing chunk, and
remainder, the sequential loop fails with that chunk's error and stops
calling: exactly the prefix and the failing chunk are passed to `tc`. -/
theorem translateSeq_fail (tc : List Char → Except String String)
    (c : List Char) (post : List (List Char)) (e : String) :
    ∀ pre : List (List Char), (∀ c2 ∈ pre, (tc c2).isOk) → tc c = .error e →
      translateSeq tc (pre ++ c :: post) = .error e ∧
      translateCalls tc (pre ++ c :: post) = pre ++ [c] := by
  intro pre
  induction pre with
  | nil =>
    intro _ hfail
    constructor
    · rw [List.nil_append, translateSeq, hfail]
    · rw [List.nil_append, translateCalls, hfail]
      rfl
  | cons p pre2 ih =>
    intro hok hfail
    have hp : ∃ t, tc p = .ok t := by
      rcases hcase : tc p with e2 | t
      · have := hok p (by simp)
        rw [hcase] at this
        simp [Except.isOk, Except.toBool] at this
      · exact ⟨t, rfl⟩
    obtain ⟨t, ht⟩ := hp
    obtain ⟨ih1, ih2⟩ := ih (fun x hx => hok x (by simp [hx])) hfail
    constructor
    · rw [List.cons_append, translateSeq, ht, ih1]
    · rw [List.cons_append, translateCalls, ht, ih2]
      rfl

/-- C9: Chunk-translator fail-fast and ordered concatenation —
`translate_full_text` translates the document's chunks sequentially in
original order and returns their concatenation; if the call for some chunk
fails, the whole job fails with that chunk's error, no partial result is
returned, and no calls are made for the remaining chunks. -/
theorem translate_fail_fast (tc : List Char → Except String String)
    (text : List Char) :
    ((∀ c ∈ chunk_text text 4500, (tc c).isOk) →
      ∃ ts, List.Forall₂ (fun c t => tc c = .ok t) (chunk_text text 4500) ts ∧
        translate_full_text tc text = .ok (ts.foldr (· ++ ·) "")) ∧
    (∀ (pre : List (List Char)) (c : List Char) (post : List (List Char)) (e : String),
      chunk_text text 4500 = pre ++ c :: post →
      (∀ c2 ∈ pre, (tc c2).isOk) → tc c = .error e →
      translate_full_text tc text = .error e ∧
      translate_full_text_calls tc text = pre ++ [c]) := by
  constructor
  · intro hok
    obtain ⟨ts, hall, hseq⟩ := translateSeq_ok tc (chunk_text text 4500) hok
    exact ⟨ts, hall, hseq⟩
  · intro pre c post e hsplit hok hfail
    have := translateSeq_fail tc c post e pre hok hfail
    unfold translate_full_text translate_full_text_calls
    rw [hsplit]
    exact this

/-- Witness for C9: a failing single-chunk document fails whole with no
further calls, and an all-success two-line document concatenates in order. -/
theorem translate_fail_fast_witness :
    (translate_full_text (fun _ => .error "boom") ['a'] = .error "boom" ∧
      translate_full_text_calls (fun _ => .error "boom") ['a'] = [] ++ [['a']]) ∧
    (∃ ts, List.Forall₂ (fun c t => (fun _ => Except.ok (ε := String) "T") c = .ok t)
        (chunk_text ['a'] 4500) ts ∧
      translate_full_text (fun _ => .ok "T") ['a'] = .ok (ts.foldr (· ++ ·) "")) :=
  ⟨(translate_fail_fast (fun _ => .error "boom") ['a']).2 [] ['a'] [] "boom"
      (by decide) (by simp) rfl,
    (translate_fail_fast (fun _ => .ok "T") ['a']).1 (by
      intro c hc
      rfl)⟩

/-- The results recorded by the completion loop are exactly the successful
jobs, keyed by language code, in completion order. -/
theorem processJobs_results (task : String → Except String String)
    (outdir stem : String) (total : Nat) :
    ∀ (jobs : List (String × String)) (completed : Nat),
      (processJobs task outdir stem total jobs completed).results
        = jobs.filterMap (fun j =>
            match task j.1 with
            | .ok t => some (j.1, t)
            | .error _ => none) := by
  intro jobs
  induction jobs with
  | nil => intro completed; rfl
  | cons j rest ih =>
    intro completed
    obtain ⟨code, name⟩ := j
    rcases hcase : task code with e | t
    · simp [processJobs, hcase, ih]
    · simp [processJobs, hcase, ih]

/-- The errors recorded by the completion loop are exactly the failed jobs,
keyed by language code, in completion order. -/
theorem processJobs_errors (task : String → Except String String)
    (outdir stem : String) (total : Nat) :
    ∀ (jobs : List (String × String)) (completed : Nat),
      (processJobs task outdir stem total jobs completed).errors
        = jobs.filterMap (fun j =>
            match task j.1 with
            | .ok _ => none
            | .error e => some (j.1, e)) := by
  intro jobs
  induction jobs with
  | nil => intro completed; rfl
  | cons j rest ih =>
    intro completed
    obtain ⟨code, name⟩ := j
    rcases hcase : task code with e | t
    · simp [processJobs, hcase, ih]
    · simp [processJobs, hcase, ih]

/-- The files written by the completion loop are exactly the successful
jobs' outputs at their per-language paths, in completion order. -/
theorem processJobs_writes (task : String → Except String String)
    (outdir stem : String) (total : Nat) :
    ∀ (jobs : List (String × String)) (completed : Nat),
      (processJobs task outdir stem total jobs completed).writes
        = jobs.filterMap (fun j =>
            match task j.1 with
            | .ok t => some (outFile outdir stem j.1, t)
            | .error _ => none) := by
  intro jobs
  induction jobs with
  | nil => intro completed; rfl
  | cons j rest ih =>
    intro completed
    obtain ⟨code, name⟩ := j
    rcases hcase : task code with e | t
    · simp [processJobs, hcase, ih]
    · simp [processJobs, hcase, ih]

/-- The completed counts carried by the progress events are consecutive,
starting one past the running counter. -/
theorem processJobs_events_counts (task : String → Except String String)
    (outdir stem : String) (total : Nat) :
    ∀ (jobs : List (String × String)) (completed : Nat),
      (processJobs task outdir stem total jobs completed).events.map
        (fun ev => ev.1) = List.range' (completed + 1) jobs.length := by
  intro jobs
  induction jobs with
  | nil => intro completed; rfl
  | cons j rest ih =>
    intro completed
    obtain ⟨code, name⟩ := j
    rcases hcase : task code with e | t
    · simp [processJobs, hcase, ih, List.range'_succ]
    · simp [processJobs, hcase, ih, List.range'_succ]

/-- The language codes carried by the progress events are exactly the jobs'
codes, one event per job, in completion order. -/
theorem processJobs_events_codes (task : String → Except String String)
    (outdir stem : String) (total : Nat) :
    ∀ (jobs : List (String × String)) (completed : Nat),
      (processJobs task outdir stem total jobs completed).events.map
        (fun ev => ev.2.2.1) = jobs.map Prod.fst := by
  intro jobs
  induction jobs with
  | nil => intro completed; rfl
  | cons j rest ih =>
    intro completed
    obtain ⟨code, name⟩ := j
    rcases hcase : task code with e | t
    · simp [processJobs, hcase, ih]
    · simp [processJobs, hcase, ih]

/-- A code appears among the recorded results only if its task succeeded. -/
theorem results_key_ok (task : String → Except String String)
    (outdir stem : String) (total : Nat) (jobs : List (String × String))
    (completed : Nat) (code : String) :
    code ∈ (processJobs task outdir stem total jobs completed).results.map Prod.fst →
      ∃ t, task code = .ok t := by
  intro hmem
  rw [processJobs_results] at hmem
  simp only [List.mem_map, List.mem_filterMap] at hmem
  obtain ⟨pair, ⟨j, hj, hopt⟩, hfst⟩ := hmem
  rcases hcase : task j.1 with e | t
  · rw [hcase] at hopt; simp at hopt
  · rw [hcase] at hopt
    simp only [Option.some_inj] at hopt
    rw [← hopt] at hfst
    simp only at hfst
    rw [← hfst]
    exact ⟨t, hcase⟩

/-- A code appears among the recorded errors only if its task failed. -/
theorem errors_key_error (task : String → Except String String)
    (outdir stem : String) (total : Nat) (jobs : List (String × String))
    (completed : Nat) (code : String) :
    code ∈ (processJobs task outdir stem total jobs completed).errors.map Prod.fst →
      ∃ e, task code = .error e := by
  intro hmem
  rw [processJobs_errors] at hmem
  simp only [List.mem_map, List.mem_filterMap] at hmem
  obtain ⟨pair, ⟨j, hj, hopt⟩, hfst⟩ := hmem
  rcases hcase : task j.1 with e | t
  · rw [hcase] at hopt
    simp only [Option.some_inj] at hopt
    rw [← hopt] at hfst
    simp only at hfst
    rw [← hfst]
    exact ⟨e, hcase⟩
  · rw [hcase] at hopt; simp at hopt

/-- Every job contributes its code to exactly one of the two outcome maps:
the concatenated key lists are a permutation of the processed jobs' codes. -/
theorem processJobs_keys_perm (task : String → Except String String)
    (outdir stem : String) (total : Nat) :
    ∀ (jobs : List (String × String)) (completed : Nat),
      ((processJobs task outdir stem total jobs completed).results.map Prod.fst ++
        (processJobs task outdir stem total jobs completed).errors.map Prod.fst).Perm
        (jobs.map Prod.fst) := by
  intro jobs
  induction jobs with
  | nil => intro completed; rfl
  | cons j rest ih =>
    intro completed
    obtain ⟨code, name⟩ := j
    rcases hcase : task code with e | t
    · simp only [processJobs, hcase, List.map_cons]
      exact List.perm_middle.trans ((ih (completed + 1)).cons code)
    · simp only [processJobs, hcase, List.map_cons, List.cons_append]
      exact ((ih (completed + 1)).cons code)

/-- C4: Outcome completeness — after the scheduling loop of
`do_translate_all` finishes over a worklist (processing the jobs in an
arbitrary completion order), the keys of the results map together with the
keys of the errors map are a permutation of the worklist's language codes —
one outcome per scheduled language, no duplicates, no omissions — even when
some jobs fail, and no language appears in both maps. -/
theorem outcome_completeness (task : String → Except String String)
    (outdir stem : String) (worklist order : List (String × String))
    (horder : order.Perm worklist) :
    ((runAll task outdir stem order).results.map Prod.fst ++
      (runAll task outdir stem order).errors.map Prod.fst).Perm
      (worklist.map Prod.fst) ∧
    ∀ code, ¬ (code ∈ (runAll task outdir stem order).results.map Prod.fst ∧
      code ∈ (runAll task outdir stem order).errors.map Prod.fst) := by
  constructor
  · exact (processJobs_keys_perm task outdir stem order.length order 0).trans
      (horder.map Prod.fst)
  · rintro code ⟨hres, herr⟩
    obtain ⟨t, ht⟩ := results_key_ok task outdir stem order.length order 0 code hres
    obtain ⟨e, he⟩ := errors_key_error task outdir stem order.length order 0 code herr
    rw [ht] at he
    exact Except.noConfusion he

/-- Witness for C4 on a two-job worklist with one failing job, processed in
reversed completion order. -/
theorem outcome_completeness_witness :
    (((runAll (fun c => if c = "fr" then .error "boom" else .ok "T")
        "out" "doc" [("de", "German"), ("fr", "French")]).results.map Prod.fst ++
      (runAll (fun c => if c = "fr" then .error "boom" else .ok "T")
        "out" "doc" [("de", "German"), ("fr", "French")]).errors.map Prod.fst).Perm
      ([("fr", "French"), ("de", "German")].map Prod.fst)) ∧
    ∀ code, ¬ (code ∈ (runAll (fun c => if c = "fr" then .error "boom" else .ok "T")
        "out" "doc" [("de", "German"), ("fr", "French")]).results.map Prod.fst ∧
      code ∈ (runAll (fun c => if c = "fr" then .error "boom" else .ok "T")
        "out" "doc" [("de", "German"), ("fr", "French")]).errors.map Prod.fst) :=
  outcome_completeness (fun c => if c = "fr" then .error "boom" else .ok "T")
    "out" "doc" [("fr", "French"), ("de", "German")] [("de", "German"), ("fr", "French")]
    (List.Perm.swap ("fr", "French") ("de", "German") [])

/-- C6: Progress monotonicity — for a run of `N` scheduled jobs, the
completed counts reported on the progress lines are exactly `1, 2, …, N` in
order (strictly increasing), with exactly one progress report per job
(success or failure): the reported codes are the scheduled codes in
completion order. -/
theorem progress_monotonic (task : String → Except String String)
    (outdir stem : String) (order : List (String × String)) :
    (runAll task outdir stem order).events.map (fun ev => ev.1)
      = List.range' 1 order.length ∧
    (runAll task outdir stem order).events.map (fun ev => ev.2.2.1)
      = order.map Prod.fst ∧
    (runAll task outdir stem order).events.length = order.length := by
  refine ⟨processJobs_events_counts task outdir stem order.length order 0,
    processJobs_events_codes task outdir stem order.length order 0, ?_⟩
  have h := processJobs_events_counts task outdir stem order.length order 0
  have := congrArg List.length h
  simpa using this

/-- Replacing the task of one language `L` changes neither the result nor
the error recorded for any other language: the loop handles each job with
its own task call only. -/
theorem processJobs_lookup_agree (task1 task2 : String → Except String String)
    (outdir stem : String) (total1 total2 : Nat) (L : String)
    (hagree : ∀ c, c ≠ L → task2 c = task1 c) :
    ∀ (jobs : List (String × String)) (completed1 completed2 : Nat) (c : String),
      c ≠ L →
      List.lookup c (processJobs task1 outdir stem total1 jobs completed1).results
        = List.lookup c (processJobs task2 outdir stem total2 jobs completed2).results ∧
      List.lookup c (processJobs task1 outdir stem total1 jobs completed1).errors
        = List.lookup c (processJobs task2 outdir stem total2 jobs completed2).errors := by
  intro jobs
  induction jobs with
  | nil => exact fun _ _ c _ => ⟨rfl, rfl⟩
  | cons j rest ih =>
    intro completed1 completed2 c hc
    obtain ⟨code, name⟩ := j
    have ihc := ih (completed1 + 1) (completed2 + 1) c hc
    by_cases hcl : code = L
    · subst hcl
      have hbeq : (c == code) = false := by simp [hc]
      rcases h1 : task1 code with e1 | t1 <;> rcases h2 : task2 code with e2 | t2 <;>
        exact ⟨by simp only [processJobs, h1, h2]; simp [List.lookup, hbeq, ihc.1],
          by simp only [processJobs, h1, h2]; simp [List.lookup, hbeq, ihc.2]⟩
    · have heq : task2 code = task1 code := hagree code hcl
      rcases h1 : task1 code with e1 | t1 <;> rw [h1] at heq
      · refine ⟨?_, ?_⟩
        · simp only [processJobs, h1, heq]
          exact ihc.1
        · simp only [processJobs, h1, heq]
          rcases hcc : (c == code) with _ | _
          · simp [List.lookup, hcc, ihc.2]
          · simp [List.lookup, hcc]
      · refine ⟨?_, ?_⟩
        · simp only [processJobs, h1, heq]
          rcases hcc : (c == code) with _ | _
          · simp [List.lookup, hcc, ihc.1]
          · simp [List.lookup, hcc]
        · simp only [processJobs, h1, heq]
          exact ihc.2

/-- C5: Failure isolation — if the translation task for one language `L`
raises, that language is recorded as a failure outcome with the error's
description, the run as a whole does not abort (every scheduled job is still
reported), and every other language's recorded result and error are exactly
what they would have been under any task that agrees outside `L`. -/
theorem failure_isolation (task1 task2 : String → Except String String)
    (outdir stem : String) (order : List (String × String)) (L e : String)
    (hfail : task1 L = .error e)
    (hagree : ∀ c, c ≠ L → task2 c = task1 c)
    (hmem : L ∈ order.map Prod.fst) :
    (L, e) ∈ (runAll task1 outdir stem order).errors ∧
    L ∉ (runAll task1 outdir stem order).results.map Prod.fst ∧
    (runAll task1 outdir stem order).events.length = order.length ∧
    (∀ c, c ≠ L →
      List.lookup c (runAll task1 outdir stem order).results
        = List.lookup c (runAll task2 outdir stem order).results ∧
      List.lookup c (runAll task1 outdir stem order).errors
        = List.lookup c (runAll task2 outdir stem order).errors) := by
  refine ⟨?_, ?_, ?_, ?_⟩
  · obtain ⟨j, hj, hjL⟩ := List.mem_map.mp hmem
    unfold runAll
    rw [processJobs_errors]
    refine List.mem_filterMap.mpr ⟨j, hj, ?_⟩
    rw [hjL, hfail]
  · intro hres
    obtain ⟨t, ht⟩ := results_key_ok task1 outdir stem order.length order 0 L hres
    rw [hfail] at ht
    exact Except.noConfusion ht
  · have h := processJobs_events_counts task1 outdir stem order.length order 0
    have := congrArg List.length h
    simpa using this
  · intro c hc
    exact processJobs_lookup_agree task1 task2 outdir stem order.length order.length
      L hagree order 0 0 c hc

/-- Witness for C5: with jobs `de` (succeeds) and `fr` (fails), `fr` is
recorded as the failure `"boom"`, is absent from results, both jobs are
reported, and `de`'s outcomes equal those under the fully succeeding task. -/
theorem failure_isolation_witness :
    (("fr", "boom") ∈ (runAll (fun c => if c = "fr" then .error "boom" else .ok "T")
        "out" "doc" [("de", "German"), ("fr", "French")]).errors ∧
      "fr" ∉ (runAll (fun c => if c = "fr" then .error "boom" else .ok "T")
        "out" "doc" [("de", "German"), ("fr", "French")]).results.map Prod.fst ∧
      (runAll (fun c => if c = "fr" then .error "boom" else .ok "T")
        "out" "doc" [("de", "German"), ("fr", "French")]).events.length
        = ([("de", "German"), ("fr", "French")] : List (String × String)).length ∧
      (∀ c, c ≠ "fr" →
        List.lookup c (runAll (fun c => if c = "fr" then .error "boom" else .ok "T")
          "out" "doc" [("de", "German"), ("fr", "French")]).results
          = List.lookup c (runAll (fun _ => .ok "T")
            "out" "doc" [("de", "German"), ("fr", "French")]).results ∧
        List.lookup c (runAll (fun c => if c = "fr" then .error "boom" else .ok "T")
          "out" "doc" [("de", "German"), ("fr", "French")]).errors
          = List.lookup c (runAll (fun _ => .ok "T")
            "out" "doc" [("de", "German"), ("fr", "French")]).errors)) :=
  failure_isolation (fun c => if c = "fr" then .error "boom" else .ok "T")
    (fun _ => .ok "T") "out" "doc" [("de", "German"), ("fr", "French")] "fr" "boom"
    (by simp) (fun c hc => by simp [hc]) (by decide)

/-- C8: Worker-count coercion — the configured worker count passes through
`max(1, workers)` before reaching the scheduler, so a configured value `< 1`
is coerced to `1`: the scheduler never sees a non-positive worker count
(which would make `ThreadPoolExecutor` raise), a coerced count of `0`
produces exactly the outcomes of worker count `1`, and the recorded outcomes
never depend on the (positive) worker count at all. -/
theorem worker_coercion (w : Int) (task : String → Except String String)
    (outdir stem : String) (order : List (String × String)) :
    1 ≤ effectiveWorkers w ∧
    runAllWithWorkers (effectiveWorkers w) task outdir stem order
      = some (runAll task outdir stem order) ∧
    runAllWithWorkers (effectiveWorkers 0) task outdir stem order
      = runAllWithWorkers 1 task outdir stem order := by
  refine ⟨le_max_left 1 w, ?_, ?_⟩
  · unfold runAllWithWorkers
    rw [if_neg]
    unfold effectiveWorkers
    omega
  · rfl

/-- A path no write targets is unchanged after applying all the writes. -/
theorem applyWrites_notin (p : String) :
    ∀ (writes : List (String × String)) (fs : String → Option String),
      (∀ w ∈ writes, w.1 ≠ p) → applyWrites fs writes p = fs p := by
  intro writes
  induction writes with
  | nil => exact fun _ _ => rfl
  | cons w rest ih =>
    intro fs h
    obtain ⟨q, t⟩ := w
    rw [applyWrites]
    rw [ih _ (fun w2 hw2 => h w2 (by simp [hw2]))]
    have hpq : p ≠ q := fun hpq => (h (q, t) (by simp)) hpq.symm
    simp [hpq]

/-- The per-language output path determines the language code: two distinct
codes never collide on the same output file path. -/
theorem outFile_inj (outdir stem c1 c2 : String)
    (h : outFile outdir stem c1 = outFile outdir stem c2) : c1 = c2 := by
  unfold outFile at h
  have hdata := congrArg String.data h
  simp only [String.data_append] at hdata
  exact String.ext (List.append_cancel_left (List.append_cancel_right hdata))

/-- C10: No persistence on failure — when language `L`'s translation task
raises, the scheduling loop records no result entry for `L` and writes no
file for it: every write belongs to a successful scheduled language, and any
pre-existing file at `L`'s output path is left unchanged by the run's
writes.  Output files are written only for languages whose outcome is a
success. -/
theorem no_persist_on_failure (task : String → Except String String)
    (outdir stem : String) (order : List (String × String)) (L e : String)
    (hfail : task L = .error e) :
    L ∉ (runAll task outdir stem order).results.map Prod.fst ∧
    (∀ w ∈ (runAll task outdir stem order).writes,
      ∃ code t, w = (outFile outdir stem code, t) ∧ task code = .ok t ∧
        code ∈ order.map Prod.fst) ∧
    (∀ fs : String → Option String,
      applyWrites fs (runAll task outdir stem order).writes (outFile outdir stem L)
        = fs (outFile outdir stem L)) := by
  have hwr : ∀ w ∈ (runAll task outdir stem order).writes,
      ∃ code t, w = (outFile outdir stem code, t) ∧ task code = .ok t ∧
        code ∈ order.map Prod.fst := by
    intro w hw
    unfold runAll at hw
    rw [processJobs_writes] at hw
    obtain ⟨j, hj, hopt⟩ := List.mem_filterMap.mp hw
    rcases hcase : task j.1 with e2 | t
    · rw [hcase] at hopt; simp at hopt
    · rw [hcase] at hopt
      simp only [Option.some_inj] at hopt
      exact ⟨j.1, t, hopt.symm, hcase, List.mem_map.mpr ⟨j, hj, rfl⟩⟩
  refine ⟨?_, hwr, ?_⟩
  · intro hres
    obtain ⟨t, ht⟩ := results_key_ok task outdir stem order.length order 0 L hres
    rw [hfail] at ht
    exact Except.noConfusion ht
  · intro fs
    apply applyWrites_notin
    intro w hw
    obtain ⟨code, t, hwt, hok, _⟩ := hwr w hw
    rw [hwt]
    intro hpath
    have hcode : code = L := outFile_inj outdir stem code L hpath
    rw [hcode, hfail] at hok
    exact Except.noConfusion hok

/-- Witness for C10: with `fr` failing, `fr` has no result, both recorded
writes are `de`'s and `it`'s successes, and a pre-existing file at `fr`'s
output path survives unchanged. -/
theorem no_persist_on_failure_witness :
    ("fr" ∉ (runAll (fun c => if c = "fr" then .error "boom" else .ok "T")
        "out" "doc" [("de", "German"), ("fr", "French"), ("it", "Italian")]).results.map
        Prod.fst ∧
      (∀ w ∈ (runAll (fun c => if c = "fr" then .error "boom" else .ok "T")
          "out" "doc" [("de", "German"), ("fr", "French"), ("it", "Italian")]).writes,
        ∃ code t, w = (outFile "out" "doc" code, t) ∧
          (fun c => if c = "fr" then Except.error (ε := String) "boom"
            else Except.ok "T") code = .ok t ∧
          code ∈ ([("de", "German"), ("fr", "French"), ("it", "Italian")] :
            List (String × String)).map Prod.fst) ∧
      (∀ fs : String → Option String,
        applyWrites fs (runAll (fun c => if c = "fr" then .error "boom" else .ok "T")
            "out" "doc" [("de", "German"), ("fr", "French"), ("it", "Italian")]).writes
            (outFile "out" "doc" "fr")
          = fs (outFile "out" "doc" "fr"))) :=
  no_persist_on_failure (fun c => if c = "fr" then .error "boom" else .ok "T")
    "out" "doc" [("de", "German"), ("fr", "French"), ("it", "Italian")] "fr" "boom"
    (by simp)

end Msg2All
